/-
Verification of the RAW-image decoding and perceptual-hashing core
(src/rust/src/lib.rs) against its natural-language specification.

The Rust source is shallowly embedded:
* pure functions become Lean functions;
* `u8`/`u16`/`u32` arithmetic is `Nat` (the sums computed by the hash
  functions stay far below `2^32`, so no wrap-around can occur and plain
  `Nat` arithmetic agrees with the machine arithmetic);
* the `f32` block means of `rust_compute_perceptual_hash` are embedded as
  `ℚ`: every mean is `sum / 16` with `sum ≤ 4080 < 2^24`, hence exactly
  representable in `f32` (16 is a power of two), and the comparisons and
  the sort performed on those means by the Rust code coincide with the
  corresponding exact rational operations;
* the gamma tone-map `(v/65535)^0.45 * 255` of the demosaic fallback is
  genuinely transcendental floating point; no claim depends on its values,
  so it is abstracted as an arbitrary function into `Nat`;
* external processes and the filesystem are modelled by explicit oracle
  parameters (success booleans) and an explicit filesystem state
  `FS := String → Bool`, threaded through the embedded control flow.
-/
import Mathlib

/-! ## Path and extension handling (`is_specific_raw_format`, lib.rs 21-27)

`Path::extension` semantics (Unix paths): take the file name (the part of
the path after the last slash, ignoring trailing slashes); the extension is
the part of the file name after its last dot, except that a file name with
no dot, equal to `..`, or whose only dot is leading (hidden files) has no
extension. -/

/-- Index of the last occurrence of a character in a list, if any. -/
def lastIndexOfChar (c : Char) : List Char → Option Nat
  | [] => none
  | x :: xs =>
    match lastIndexOfChar c xs with
    | some i => some (i + 1)
    | none => if x = c then some 0 else none

/-- The file-name component of a Unix path: strip trailing slashes, then
take everything after the last slash.  The empty result stands for Rust's
`None` file name. -/
def rustFileName (p : String) : String :=
  let cs := ((p.data.reverse.dropWhile (fun c => c = '/'))).reverse
  String.mk ((cs.reverse.takeWhile (fun c => c ≠ '/')).reverse)

/-- `Path::extension` of lib.rs's path handling, embedded for Unix paths. -/
def rustExtension (p : String) : Option String :=
  let name := rustFileName p
  if name = "" then none
  else if name = ".." then none
  else
    match lastIndexOfChar '.' name.data with
    | none => none
    | some 0 => none
    | some i => some (String.mk (name.data.drop (i + 1)))

/-- ASCII lowercasing, the fragment of Rust's `str::to_lowercase` relevant
to file extensions. -/
def lowerAscii (s : String) : String := String.mk (s.data.map Char.toLower)

/-- lib.rs 21-27: `is_specific_raw_format` compares the lowercased file
extension with the lowercased queried format; a missing extension never
matches. -/
def is_specific_raw_format (path format : String) : Bool :=
  match rustExtension path with
  | none => false
  | some ext => lowerAscii ext == lowerAscii format

/-! ## Grayscale images and the two hash functions (lib.rs 651-730)

A `PyReadonlyArray2<u8>` is a two-dimensional array with a shape and O(1)
element access `arr[[y, x]]`; it is embedded as a shape plus an accessor
function (pixel values are `u8`, but no claim needs the `< 256` bound). -/

structure GrayImage where
  rows : Nat
  cols : Nat
  pix : Nat → Nat → Nat

/-- lib.rs 651-681: `rust_compute_average_hash`.  The sum loop over
`arr.rows()` is row-major; `sum` is a `u32` (at most `64 * 255`, no
overflow), `avg` uses truncating integer division, and each pixel
contributes `'1'` iff `pixel >= avg`. -/
def rust_compute_average_hash (img : GrayImage) : Except String String :=
  if img.rows ≠ 8 ∨ img.cols ≠ 8 then
    .error "Image must be 8x8 for average hash"
  else
    let sum := (List.range img.rows).foldl (fun acc y =>
      (List.range img.cols).foldl (fun acc2 x => acc2 + img.pix y x) acc) 0
    let avg := sum / 64
    .ok (String.mk ((List.range img.rows).flatMap (fun y =>
      (List.range img.cols).map (fun x =>
        if img.pix y x ≥ avg then '1' else '0'))))

/-- lib.rs 707-714: the per-region accumulation loop of
`rust_compute_perceptual_hash`: `sum += arr[[y, x]]; count += 1` over
`start_y..end_y` × `start_x..end_x`, then `sum as f32 / count as f32`. -/
def regionValue (img : GrayImage) (sy ey sx ex : Nat) : ℚ :=
  let sc := (List.range' sy (ey - sy)).foldl (fun acc y =>
    (List.range' sx (ex - sx)).foldl (fun acc2 x =>
      (acc2.1 + img.pix y x, acc2.2 + 1)) acc) ((0 : Nat), (0 : Nat))
  (sc.1 : ℚ) / (sc.2 : ℚ)

/-- lib.rs 684-730: `rust_compute_perceptual_hash`.  The region values are
produced in row-major region order (`region_values[i * 8 + j]`), sorted
ascending by `sort_by(partial_cmp)` (embedded as `mergeSort`, a stable
ascending sort; the values are never NaN), the threshold is
`sorted_values[8 * 8 / 2]` and each region contributes `'1'` iff its value
is strictly greater than that threshold. -/
def rust_compute_perceptual_hash (img : GrayImage) : Except String String :=
  if img.rows ≠ 32 ∨ img.cols ≠ 32 then
    .error "Image must be 32x32 for perceptual hash"
  else
    let region_height := img.rows / 8
    let region_width := img.cols / 8
    let region_values := (List.range 8).flatMap (fun i =>
      (List.range 8).map (fun j =>
        regionValue img (i * region_height) ((i + 1) * region_height)
          (j * region_width) ((j + 1) * region_width)))
    let sorted_values := region_values.mergeSort
    let median := sorted_values.getD (8 * 8 / 2) 0
    .ok (String.mk (region_values.map (fun v =>
      if v > median then '1' else '0')))

/-! ### Specification-level descriptions of the hash computations -/

/-- Mean of all 64 pixels of an 8×8 image, with truncating division. -/
def pixelMean (img : GrayImage) : Nat :=
  (((List.range 8).flatMap (fun y =>
    (List.range 8).map (fun x => img.pix y x))).sum) / 64

/-- Mean intensity of the 4×4 block at block coordinates `(i, j)` of a
32×32 image, as an exact rational. -/
def blockMean (img : GrayImage) (i j : Nat) : ℚ :=
  ((((List.range 4).flatMap (fun dy =>
    (List.range 4).map (fun dx =>
      img.pix (i * 4 + dy) (j * 4 + dx)))).sum : Nat) : ℚ) / 16

/-- The 64 block means in row-major block order. -/
def blockMeans (img : GrayImage) : List ℚ :=
  (List.range 64).map (fun k => blockMean img (k / 8) (k % 8))

/-- The threshold actually selected by the code: the element at index 32
(the upper of the two central values) of the ascending sort of the 64
block means. -/
def upperMedian (img : GrayImage) : ℚ :=
  ((blockMeans img).mergeSort).getD 32 0

/-- Modelled from the spec: the spec's block-median hash, in which the
median of the 64 block means averages the two central values of the sorted
list (the source instead selects the upper central value); kept only for
comparison against `rust_compute_perceptual_hash`. -/
def spec_block_median_hash (img : GrayImage) : Except String String :=
  if img.rows ≠ 32 ∨ img.cols ≠ 32 then
    .error "Image must be 32x32 for perceptual hash"
  else
    let sorted_values := (blockMeans img).mergeSort
    let median := (sorted_values.getD 31 0 + sorted_values.getD 32 0) / 2
    .ok (String.mk ((blockMeans img).map (fun v =>
      if v > median then '1' else '0')))

/-! ## Sensor decoder and demosaic fallback (`process_and_save_image`, lib.rs 507-575)

`rawloader::RawImageData` carries either 16-bit integer samples or `f32`
samples; the two gamma tone-maps (lib.rs 525 and 546) are transcendental
floating point and are abstracted as arbitrary functions `tmInt`/`tmFloat`
into `Nat` (the resulting `u8`); no claim depends on their values. -/

inductive RawImageData where
  | integer (data : List Nat)
  | float (data : List ℚ)

structure RawImage where
  width : Nat
  height : Nat
  data : RawImageData

/-- Length of the sensor-sample vector. -/
def rawDataLen (raw : RawImage) : Nat :=
  match raw.data with
  | .integer d => d.length
  | .float d => d.length

/-- The tone-mapped `value` for sample index `idx` (lib.rs 525 / 546),
with the two gamma curves abstracted. -/
def sampleVal (tmInt : Nat → Nat) (tmFloat : ℚ → Nat) (raw : RawImage)
    (idx : Nat) : Nat :=
  match raw.data with
  | .integer d => tmInt (d.getD idx 0)
  | .float d => tmFloat (d.getD idx 0)

/-- lib.rs 528-533 / 549-554: colour estimate from the 2×2 Bayer tile
position `pattern_idx = (y % 2) * 2 + (x % 2)` under the assumed RGGB
pattern (`0 => R`, `1 | 2 => G`, `_ => B`). -/
def bayerColor (patternIdx value : Nat) : Nat × Nat × Nat :=
  match patternIdx with
  | 0 => (value, value / 2, value / 2)
  | 1 => (value / 2, value, value / 2)
  | 2 => (value / 2, value, value / 2)
  | _ => (value / 2, value / 2, value)

/-- `ImageBuffer::put_pixel`: point update of the pixel store, keyed by
`(x, y)`. -/
def putPixel (buf : Nat × Nat → Nat × Nat × Nat) (x y : Nat)
    (c : Nat × Nat × Nat) : Nat × Nat → Nat × Nat × Nat :=
  fun p => if p = (x, y) then c else buf p

/-- lib.rs 520-537 / 541-559: the demosaic double loop.  The buffer starts
zero-initialised (`ImageBuffer::new`); for each `y < height`, `x < width`
the pixel is written only when `idx = y * width + x < data.len()`. -/
def demosaicLoop (width len : Nat) (sample : Nat → Nat) (height : Nat) :
    Nat × Nat → Nat × Nat × Nat :=
  (List.range height).foldl (fun buf y =>
    (List.range width).foldl (fun buf2 x =>
      if y * width + x < len then
        putPixel buf2 x y
          (bayerColor ((y % 2) * 2 + x % 2) (sample (y * width + x)))
      else buf2) buf)
    (fun _ => (0, 0, 0))

/-- The RGB buffer built by `process_and_save_image` before the optional
downscale and the JPEG encoding. -/
def decodeBuffer (tmInt : Nat → Nat) (tmFloat : ℚ → Nat) (raw : RawImage) :
    Nat × Nat → Nat × Nat × Nat :=
  demosaicLoop raw.width (rawDataLen raw) (sampleVal tmInt tmFloat raw)
    raw.height

/-- lib.rs 507-575: `process_and_save_image`.  The only fallible step in
the source is the final `img.save_with_format` (and the downscale, which
is total); encoding success is therefore an oracle `saveOk`.  The decode
loops themselves are total: no length validation is performed. -/
def process_and_save_image (tmInt : Nat → Nat) (tmFloat : ℚ → Nat)
    (saveOk : Bool) (raw : RawImage) :
    Except String (Nat × Nat → Nat × Nat × Nat) :=
  let buf := decodeBuffer tmInt tmFloat raw
  if saveOk then .ok buf else .error "io error"

/-! ## Decode strategy chain (lib.rs 31-65 and 250-317)

Each strategy is an external-process invocation whose outcome is an
environment oracle (a `Bool`); the wall-clock readings
`start.elapsed()` taken after the first and second failed strategies are
oracle parameters in milliseconds, compared against
`Duration::from_secs(4)`. -/

inductive ChainResult where
  | success
  | timeout
  | exhausted
deriving DecidableEq

/-- `TIMEOUT_SECONDS = 4`, in milliseconds. -/
def TIMEOUT_MS : Nat := 4000

/-- lib.rs 31-65: `rust_process_raf_file`.  Strategies in order:
`extract_preview_with_exiftool`, `extract_with_dcraw_simple`,
`extract_with_libraw_fuji`; after each of the first two failures the
elapsed time is checked. -/
def rust_process_raf_file (exiftoolOk dcrawSimpleOk librawFujiOk : Bool)
    (t1 t2 : Nat) : ChainResult :=
  if exiftoolOk then .success
  else if t1 > TIMEOUT_MS then .timeout
  else if dcrawSimpleOk then .success
  else if t2 > TIMEOUT_MS then .timeout
  else if librawFujiOk then .success
  else .exhausted

/-- lib.rs 250-317: `rust_convert_raw_to_jpg`.  A `.raf` path delegates to
the RAF chain (with its own timer); otherwise the chain is embedded
preview extraction, then one format-specific strategy selected by the
extension match (Sony/Canon/Nikon/rawloader, collapsed into the single
oracle `fmtOk`), then the generic fallback, with a time check after each
of the first two failures. -/
def rust_convert_raw_to_jpg (path : String) (rafResult : ChainResult)
    (previewOk fmtOk genericOk : Bool) (t1 t2 : Nat) : ChainResult :=
  if is_specific_raw_format path "raf" then rafResult
  else if previewOk then .success
  else if t1 > TIMEOUT_MS then .timeout
  else if fmtOk then .success
  else if t2 > TIMEOUT_MS then .timeout
  else if genericOk then .success
  else .exhausted

/-- The strategy chain as a single loop over an ordered strategy list:
first success wins; after a failure with strategies remaining the next
recorded elapsed time is checked against the budget; a failing last
strategy exhausts the chain. -/
def runChain : List Bool → List Nat → ChainResult
  | [], _ => .exhausted
  | [s], _ => if s then .success else .exhausted
  | s :: rest, ts =>
    if s then .success
    else
      match ts with
      | [] => runChain rest []
      | t :: ts2 => if t > TIMEOUT_MS then .timeout else runChain rest ts2

/-! ## Filesystem effects of the decode pipeline (lib.rs 99-146, 579-648)

The filesystem is the set of existing paths, `FS := String → Bool`;
external commands and fallible I/O calls are oracle booleans in an
environment record, and each embedded operation updates the state exactly
where the source creates or removes a file. -/

def FS : Type := String → Bool

def fsInsert (p : String) (fs : FS) : FS := fun q => q == p || fs q

def fsRemove (p : String) (fs : FS) : FS := fun q => !(q == p) && fs q

/-- `Path::with_file_name`: everything up to and including the last slash
(after ignoring trailing slashes), with the new file name appended. -/
def withFileName (p newName : String) : String :=
  let cs := ((p.data.reverse.dropWhile (fun c => c = '/'))).reverse
  String.mk (cs.take (cs.length - (rustFileName p).length)) ++ newName

/-- The stem of the file name: the part before the last dot, under the
same rules as `rustExtension`. -/
def fileStem (p : String) : String :=
  let name := rustFileName p
  if name = ".." then name
  else
    match lastIndexOfChar '.' name.data with
    | none => name
    | some 0 => name
    | some i => String.mk (name.data.take i)

/-- `Path::with_extension`: the stem with the new extension appended. -/
def withExtension (p ext : String) : String :=
  let base := withFileName p (fileStem p)
  if ext = "" then base else base ++ "." ++ ext

/-- lib.rs 108-110: the thumbnail path derived by the `dcraw -e`
strategies: `with_file_name("thumb_" + filename).with_extension("jpg")`. -/
def thumbPathOf (path : String) : String :=
  withExtension (withFileName path ("thumb_" ++ rustFileName path)) "jpg"

/-- Oracle outcomes for one run of `extract_with_dcraw_simple`:
the two external `dcraw` invocations, whether `dcraw -e` produced the
thumb file, and the fallible filesystem/encode steps. -/
structure DcrawSimpleEnv where
  thumbCmdOk : Bool
  thumbCreated : Bool
  copyOk : Bool
  convCmdOk : Bool
  createOk : Bool
  writeOk : Bool
  openOk : Bool
  saveOk : Bool

/-- lib.rs 121-143: the second half of `extract_with_dcraw_simple`
(`dcraw -c -h -q 0`, stdout saved to `jpg_path + ".ppm"`, decoded and
re-encoded, with the temporary ppm removed on every path after its
creation). -/
def dcrawSimpleStage2 (e : DcrawSimpleEnv) (jpg_path : String) (fs : FS) :
    Bool × FS :=
  if e.convCmdOk then
    if e.createOk then
      let fs2 := fsInsert (jpg_path ++ ".ppm") fs
      if e.writeOk then
        if e.openOk then
          if e.saveOk then
            (true, fsRemove (jpg_path ++ ".ppm") (fsInsert jpg_path fs2))
          else (false, fsRemove (jpg_path ++ ".ppm") fs2)
        else (false, fsRemove (jpg_path ++ ".ppm") fs2)
      else (false, fsRemove (jpg_path ++ ".ppm") fs2)
    else (false, fs)
  else (false, fs)

/-- lib.rs 99-146: `extract_with_dcraw_simple`.  If `dcraw -e` succeeds
and the thumb file exists, it is copied to the destination and removed
only when the copy succeeds: on a failed copy the thumb file is left in
place and control falls through to the conversion stage. -/
def extract_with_dcraw_simple (e : DcrawSimpleEnv) (path jpg_path : String)
    (fs : FS) : Bool × FS :=
  let thumb := thumbPathOf path
  let fs1 := if e.thumbCreated then fsInsert thumb fs else fs
  if e.thumbCmdOk then
    if fs1 thumb then
      if e.copyOk then (true, fsRemove thumb (fsInsert jpg_path fs1))
      else dcrawSimpleStage2 e jpg_path fs1
    else dcrawSimpleStage2 e jpg_path fs1
  else dcrawSimpleStage2 e jpg_path fs1

/-- lib.rs 579-648: the filesystem behaviour of `rust_raw_to_grayscale`:
the chain writes to `path + ".temp.jpg"` (its own temporary effects are
the abstract transformer `chainFS`), and the temporary jpg is removed on
every exit path (lib.rs 617, 638, 644). -/
def rust_raw_to_grayscale (chainOk : Bool) (chainFS : FS → FS)
    (openOk : Bool) (path : String) (fs : FS) : Bool × FS :=
  let temp := path ++ ".temp.jpg"
  let fs1 := chainFS fs
  if chainOk then
    if openOk then (true, fsRemove temp fs1)
    else (false, fsRemove temp fs1)
  else (false, fsRemove temp fs1)

/-! ## Concrete image families used by counterexamples and witnesses -/

/-- 32×32 image whose 4×4 blocks form a checkerboard: block `(i, j)` has
constant intensity `lo` when `i + j` is even and `hi` otherwise. -/
def checkerImg (lo hi : Nat) : GrayImage :=
  ⟨32, 32, fun y x => if (y / 4 + x / 4) % 2 = 0 then lo else hi⟩

/-- 32×32 image whose top 16 rows are 0 and bottom 16 rows are 255. -/
def halfImg : GrayImage :=
  ⟨32, 32, fun y _ => if y < 16 then 0 else 255⟩

/-- 32×32 constant image. -/
def constImg32 : GrayImage := ⟨32, 32, fun _ _ => 7⟩

/-- 8×8 constant image. -/
def constImg8 : GrayImage := ⟨8, 8, fun _ _ => 9⟩

/-- 31×32 image, for the shape-mismatch checks. -/
def badImg : GrayImage := ⟨31, 32, fun _ _ => 0⟩

/-- A sensor image whose data (1 sample) is shorter than width×height (2). -/
def shortRaw : RawImage := ⟨2, 1, .integer [40000]⟩

/-- A well-formed 2×2 sensor image. -/
def demoRaw : RawImage := ⟨2, 2, .integer [100, 200, 300, 400]⟩

/-- A concrete stand-in for the integer tone-map. -/
def idTone : Nat → Nat := fun v => v

/-- A concrete stand-in for the float tone-map. -/
def zeroToneF : ℚ → Nat := fun _ => 0

/-- Oracle environment in which `dcraw -e` succeeds and creates the thumb
file but the copy to the destination fails, and everything else fails. -/
def leakEnv : DcrawSimpleEnv := ⟨true, true, false, false, false, false,
  false, false⟩

/-- The empty filesystem. -/
def emptyFS : FS := fun _ => false

/-! ## Generic loop-accumulation lemmas -/

/-- A left fold that only accumulates a sum is the sum of the mapped list. -/
theorem foldl_add_eq {α : Type} (l : List α) (f : α → Nat) (a : Nat) :
    l.foldl (fun acc x => acc + f x) a = a + (l.map f).sum := by
  induction l generalizing a with
  | nil => simp
  | cons x xs ih => simp [ih, Nat.add_assoc]

/-- A left fold that accumulates a sum and a count. -/
theorem foldl_pair_eq {α : Type} (l : List α) (f : α → Nat) (k : Nat)
    (acc : Nat × Nat) :
    l.foldl (fun a2 x => (a2.1 + f x, a2.2 + k)) acc
      = (acc.1 + (l.map f).sum, acc.2 + k * l.length) := by
  induction l generalizing acc with
  | nil => simp
  | cons x xs ih =>
    simp only [List.foldl_cons, ih, List.map_cons, List.sum_cons,
      List.length_cons, Prod.mk.injEq, Nat.mul_succ]
    omega

/-- Summing a flattened nested list row by row. -/
theorem sum_flatMap_eq {α : Type} (l : List α) (g : α → List Nat) :
    (l.flatMap g).sum = (l.map (fun a => (g a).sum)).sum := by
  induction l with
  | nil => rfl
  | cons x xs ih => simp [ih]

/-- Row-major flattening of an 8×8 grid as a single 64-index map. -/
theorem flatMap_range_eq {α : Type} (g : Nat → Nat → α) :
    (List.range 8).flatMap (fun y => (List.range 8).map (fun x => g y x))
      = (List.range 64).map (fun k => g (k / 8) (k % 8)) := rfl


/-! ## Bridging the hash loops to their closed forms -/

/-- The region accumulation loop over a 4×4 block computes the block mean. -/
theorem regionValue_eq_blockMean (img : GrayImage) (i j : Nat) :
    regionValue img (i * 4) ((i + 1) * 4) (j * 4) ((j + 1) * 4)
      = blockMean img i j := by
  unfold regionValue blockMean
  have h4 : (i + 1) * 4 - i * 4 = 4 := by omega
  have h4j : (j + 1) * 4 - j * 4 = 4 := by omega
  rw [h4, h4j]
  simp only [foldl_pair_eq, List.length_range', Nat.one_mul]
  rw [sum_flatMap_eq]
  simp only [List.range'_eq_map_range, List.map_map, Function.comp_def]
  norm_num

/-- `rust_compute_average_hash` on an 8×8 image, with the threshold
expressed as the truncating mean of all 64 pixels. -/
theorem average_hash_ok (img : GrayImage) (hr : img.rows = 8)
    (hc : img.cols = 8) :
    rust_compute_average_hash img
      = .ok (String.mk ((List.range 8).flatMap (fun y =>
          (List.range 8).map (fun x =>
            if img.pix y x ≥ pixelMean img then '1' else '0')))) := by
  unfold rust_compute_average_hash
  rw [hr, hc]
  have hsum : (List.range 8).foldl (fun acc y =>
      (List.range 8).foldl (fun acc2 x => acc2 + img.pix y x) acc) 0
      = ((List.range 8).flatMap (fun y =>
          (List.range 8).map (fun x => img.pix y x))).sum := by
    simp only [foldl_add_eq, sum_flatMap_eq, Nat.zero_add]
  simp only [hsum]
  rfl

/-- `rust_compute_perceptual_hash` on a 32×32 image, with the region list
identified with `blockMeans` and the threshold with `upperMedian`. -/
theorem perceptual_hash_ok (img : GrayImage) (hr : img.rows = 32)
    (hc : img.cols = 32) :
    rust_compute_perceptual_hash img
      = .ok (String.mk ((blockMeans img).map (fun v =>
          if v > upperMedian img then '1' else '0'))) := by
  unfold rust_compute_perceptual_hash
  rw [hr, hc]
  have hlist : (List.range 8).flatMap (fun i =>
      (List.range 8).map (fun j =>
        regionValue img (i * (32 / 8)) ((i + 1) * (32 / 8))
          (j * (32 / 8)) ((j + 1) * (32 / 8)))) = blockMeans img := by
    norm_num
    simp only [regionValue_eq_blockMean]
    exact flatMap_range_eq (g := blockMean img)
  simp only [hlist]
  rfl

/-! ## Order statistics of the sorted block means -/

/-- In a sorted permutation of a 64-element list in which exactly 32
elements are below `hi` and every element is at most `hi`, the element at
index 32 (the upper central position) equals `hi`. -/
theorem sorted_nth_upper (s vals : List ℚ) (hi : ℚ) (hperm : s.Perm vals)
    (hsort : s.Sorted (· ≤ ·)) (hlen : vals.length = 64)
    (hcount : vals.countP (fun v => decide (v < hi)) = 32)
    (hle : ∀ v ∈ vals, v ≤ hi) : s.getD 32 0 = hi := by
  have hslen : s.length = 64 := by rw [hperm.length_eq, hlen]
  have h32 : (32 : Nat) < s.length := by omega
  have hgetD : s.getD 32 0 = s[32] := by
    simp [List.getD_eq_getElem?_getD, List.getElem?_eq_getElem h32]
  rw [hgetD]
  have hmem : s[32] ∈ vals := hperm.mem_iff.mp (List.getElem_mem h32)
  refine le_antisymm (hle _ hmem) (not_lt.mp ?_)
  intro hlt
  have hall : ∀ i, (h : i < (s.take 33).length) → (s.take 33)[i] < hi := by
    intro i h
    have hi33 : i < 33 := by
      have := List.length_take_le 33 s
      omega
    have his : i < s.length := by omega
    rw [List.getElem_take]
    rcases Nat.lt_or_ge i 32 with hcase | hcase
    · exact lt_of_le_of_lt
        (hsort.rel_get_of_lt (a := ⟨i, his⟩) (b := ⟨32, h32⟩) hcase) hlt
    · have : i = 32 := by omega
      subst this
      exact hlt
  have htake : (s.take 33).countP (fun v => decide (v < hi))
      = (s.take 33).length := by
    rw [List.countP_eq_length]
    intro a ha
    rcases List.mem_iff_getElem.mp ha with ⟨n, hn, rfl⟩
    simpa using hall n hn
  have hlen33 : (s.take 33).length = 33 := by
    rw [List.length_take]
    omega
  have hle33 : (s.take 33).countP (fun v => decide (v < hi))
      ≤ s.countP (fun v => decide (v < hi)) :=
    (List.take_sublist 33 s).countP_le _
  rw [hperm.countP_eq, hcount] at hle33
  omega

/-- Dually, with exactly 32 elements at most `lo` and every element at
least `lo`, the element at index 31 (the lower central position) equals
`lo`. -/
theorem sorted_nth_lower (s vals : List ℚ) (lo : ℚ) (hperm : s.Perm vals)
    (hsort : s.Sorted (· ≤ ·)) (hlen : vals.length = 64)
    (hcount : vals.countP (fun v => decide (v ≤ lo)) = 32)
    (hge : ∀ v ∈ vals, lo ≤ v) : s.getD 31 0 = lo := by
  have hslen : s.length = 64 := by rw [hperm.length_eq, hlen]
  have h31 : (31 : Nat) < s.length := by omega
  have hgetD : s.getD 31 0 = s[31] := by
    simp [List.getD_eq_getElem?_getD, List.getElem?_eq_getElem h31]
  rw [hgetD]
  have hmem : s[31] ∈ vals := hperm.mem_iff.mp (List.getElem_mem h31)
  refine le_antisymm (not_lt.mp ?_) (hge _ hmem)
  intro hlt
  have hdrop : ∀ i, (h : i < (s.drop 31).length) → ¬ ((s.drop 31)[i] ≤ lo) := by
    intro i h
    rw [List.getElem_drop]
    have his : 31 + i < s.length := by
      have := List.length_drop 31 s
      omega
    have h31le : s[31] ≤ s[31 + i] := by
      rcases Nat.eq_zero_or_pos i with hz | hp
      · subst hz
        simp
      · exact hsort.rel_get_of_lt (a := ⟨31, h31⟩) (b := ⟨31 + i, his⟩)
          (Fin.mk_lt_mk.mpr (by omega))
    exact fun hcontra => absurd (lt_of_lt_of_le hlt (le_trans h31le hcontra))
      (lt_irrefl lo)
  have hdrop0 : (s.drop 31).countP (fun v => decide (v ≤ lo)) = 0 := by
    rw [List.countP_eq_zero]
    intro a ha
    rcases List.mem_iff_getElem.mp ha with ⟨n, hn, rfl⟩
    simpa using hdrop n hn
  have hsplit : s.countP (fun v => decide (v ≤ lo))
      = (s.take 31).countP (fun v => decide (v ≤ lo))
        + (s.drop 31).countP (fun v => decide (v ≤ lo)) := by
    rw [← List.countP_append, List.take_append_drop]
  have htakele : (s.take 31).countP (fun v => decide (v ≤ lo))
      ≤ (s.take 31).length := List.countP_le_length _
  have hlen31 : (s.take 31).length = 31 := by
    rw [List.length_take]
    omega
  rw [hperm.countP_eq, hcount] at hsplit
  omega

/-! ## Block means of the concrete image families -/

/-- A 4×4 block of constant intensity has that intensity as its mean. -/
theorem blockMean_const (img : GrayImage) (i j c : Nat)
    (h : ∀ dy < 4, ∀ dx < 4, img.pix (i * 4 + dy) (j * 4 + dx) = c) :
    blockMean img i j = (c : ℚ) := by
  unfold blockMean
  rw [sum_flatMap_eq]
  have hinner : ∀ dy ∈ List.range 4,
      ((List.range 4).map (fun dx => img.pix (i * 4 + dy) (j * 4 + dx))).sum
        = 4 * c := by
    intro dy hdy
    rw [List.map_congr_left (fun dx hdx =>
      h dy (List.mem_range.mp hdy) dx (List.mem_range.mp hdx))]
    simp [List.map_const', List.sum_replicate, smul_eq_mul]
    omega
  rw [List.map_congr_left hinner]
  simp [List.map_const', List.sum_replicate, smul_eq_mul]
  ring

/-- Block means of the checkerboard image. -/
theorem blockMeans_checker (lo hi : Nat) :
    blockMeans (checkerImg lo hi)
      = (List.range 64).map (fun k =>
          if (k / 8 + k % 8) % 2 = 0 then (lo : ℚ) else hi) := by
  unfold blockMeans
  apply List.map_congr_left
  intro k _
  have hpix : ∀ dy < 4, ∀ dx < 4,
      (checkerImg lo hi).pix ((k / 8) * 4 + dy) ((k % 8) * 4 + dx)
        = if (k / 8 + k % 8) % 2 = 0 then lo else hi := by
    intro dy hdy dx hdx
    show (if (((k / 8) * 4 + dy) / 4 + ((k % 8) * 4 + dx) / 4) % 2 = 0
      then lo else hi) = _
    have e1 : ((k / 8) * 4 + dy) / 4 = k / 8 := by omega
    have e2 : ((k % 8) * 4 + dx) / 4 = k % 8 := by omega
    rw [e1, e2]
  rw [blockMean_const _ _ _ _ hpix]
  split <;> rfl

/-- Block means of the half-black half-white image. -/
theorem blockMeans_half :
    blockMeans halfImg
      = (List.range 64).map (fun k => if k < 32 then (0 : ℚ) else 255) := by
  unfold blockMeans
  apply List.map_congr_left
  intro k _
  have hpix : ∀ dy < 4, ∀ dx < 4,
      halfImg.pix ((k / 8) * 4 + dy) ((k % 8) * 4 + dx)
        = if k < 32 then 0 else 255 := by
    intro dy hdy dx hdx
    show (if (k / 8) * 4 + dy < 16 then 0 else 255) = _
    have e : ((k / 8) * 4 + dy < 16) ↔ k < 32 := by omega
    rw [if_congr e rfl rfl]
  rw [blockMean_const _ _ _ _ hpix]
  split <;> rfl

/-! ## The medians and hashes of the concrete families -/

/-- On a checkerboard of two block intensities the threshold selected by
the code is the higher intensity, not a value between the two. -/
theorem checker_upperMedian (lo hi : Nat) (h : lo < hi) :
    upperMedian (checkerImg lo hi) = (hi : ℚ) := by
  have hcast : (lo : ℚ) < (hi : ℚ) := by exact_mod_cast h
  unfold upperMedian
  refine sorted_nth_upper _ (blockMeans (checkerImg lo hi)) _
    (List.mergeSort_perm _ _) (List.sorted_mergeSort' _) ?_ ?_ ?_
  · simp [blockMeans]
  · rw [blockMeans_checker, List.countP_map]
    rw [List.countP_congr
      (q := fun k => decide ((k / 8 + k % 8) % 2 = 0)) ?_]
    · decide
    · intro k _
      by_cases hpar : (k / 8 + k % 8) % 2 = 0 <;>
        simp [hpar, Function.comp, hcast]
  · intro v hv
    rw [blockMeans_checker] at hv
    rcases List.mem_map.mp hv with ⟨k, _, rfl⟩
    by_cases hpar : (k / 8 + k % 8) % 2 = 0 <;> simp [hpar, le_of_lt hcast]

/-- On a checkerboard the hash emitted by the code is all zeros. -/
theorem checker_hash (lo hi : Nat) (h : lo < hi) :
    rust_compute_perceptual_hash (checkerImg lo hi)
      = .ok (String.mk (List.replicate 64 '0')) := by
  have hcast : (lo : ℚ) < (hi : ℚ) := by exact_mod_cast h
  rw [perceptual_hash_ok _ rfl rfl, checker_upperMedian lo hi h,
    blockMeans_checker]
  congr 1
  rw [List.map_map]
  rw [List.map_congr_left (g := fun _ => '0') ?_]
  · simp [List.map_const']
  · intro k _
    simp only [Function.comp_apply]
    by_cases hpar : (k / 8 + k % 8) % 2 = 0 <;>
      simp [hpar, not_lt.mpr (le_of_lt hcast), lt_irrefl]

/-- The code's threshold on the half-black half-white image. -/
theorem half_upperMedian : upperMedian halfImg = 255 := by
  unfold upperMedian
  refine sorted_nth_upper _ (blockMeans halfImg) _
    (List.mergeSort_perm _ _) (List.sorted_mergeSort' _) ?_ ?_ ?_
  · simp [blockMeans]
  · rw [blockMeans_half, List.countP_map]
    rw [List.countP_congr (q := fun k => decide (k < 32)) ?_]
    · decide
    · intro k _
      by_cases hk : k < 32 <;> simp [hk, Function.comp]
  · intro v hv
    rw [blockMeans_half] at hv
    rcases List.mem_map.mp hv with ⟨k, _, rfl⟩
    by_cases hk : k < 32 <;> simp [hk]

/-- The spec's lower central value on the half-black half-white image. -/
theorem half_lowerMedian : ((blockMeans halfImg).mergeSort).getD 31 0 = 0 := by
  refine sorted_nth_lower _ (blockMeans halfImg) _
    (List.mergeSort_perm _ _) (List.sorted_mergeSort' _) ?_ ?_ ?_
  · simp [blockMeans]
  · rw [blockMeans_half, List.countP_map]
    rw [List.countP_congr (q := fun k => decide (k < 32)) ?_]
    · decide
    · intro k _
      by_cases hk : k < 32 <;> simp [hk, Function.comp]
  · intro v hv
    rw [blockMeans_half] at hv
    rcases List.mem_map.mp hv with ⟨k, _, rfl⟩
    by_cases hk : k < 32 <;> simp [hk]

/-- The hash emitted by the code on the half-black half-white image is all
zeros. -/
theorem half_hash :
    rust_compute_perceptual_hash halfImg
      = .ok (String.mk (List.replicate 64 '0')) := by
  rw [perceptual_hash_ok _ rfl rfl, half_upperMedian, blockMeans_half]
  congr 1

/-- `spec_block_median_hash` on a 32×32 image, unfolded past the shape
check. -/
theorem spec_hash_ok (img : GrayImage) (hr : img.rows = 32)
    (hc : img.cols = 32) :
    spec_block_median_hash img
      = .ok (String.mk ((blockMeans img).map (fun v =>
          if v > (((blockMeans img).mergeSort).getD 31 0
              + ((blockMeans img).mergeSort).getD 32 0) / 2
          then '1' else '0'))) := by
  unfold spec_block_median_hash
  rw [hr, hc]
  rfl

/-- The upper central value on the half-black half-white image, stated on
the sorted list directly. -/
theorem half_upperMedian_getD :
    ((blockMeans halfImg).mergeSort).getD 32 0 = 255 := half_upperMedian

/-- The spec-modelled hash on the half-black half-white image: the
averaged median separates the two intensities, so the lower half yields
zeros and the upper half ones. -/
theorem half_spec_hash :
    spec_block_median_hash halfImg
      = .ok (String.mk (List.replicate 32 '0' ++ List.replicate 32 '1')) := by
  rw [spec_hash_ok _ rfl rfl, half_lowerMedian, half_upperMedian_getD,
    blockMeans_half]
  congr 1
  rw [List.map_map]
  rw [List.map_congr_left (g := fun k => if k < 32 then '0' else '1') ?_]
  · decide
  · intro k _
    simp only [Function.comp_apply]
    by_cases hk : k < 32
    · norm_num [hk]
    · norm_num [hk]

/-! ## Pointwise characterisation of the demosaic loop -/

/-- One row of the demosaic loop: the inner fold over `x` writes only keys
`(x, y0)` with `x < n` and `y0 * w + x < len`. -/
theorem demosaic_inner_apply (w len : Nat) (sample : Nat → Nat) (y0 n : Nat)
    (buf : Nat × Nat → Nat × Nat × Nat) (x y : Nat) :
    ((List.range n).foldl (fun buf2 x2 =>
      if y0 * w + x2 < len then
        putPixel buf2 x2 y0
          (bayerColor ((y0 % 2) * 2 + x2 % 2) (sample (y0 * w + x2)))
      else buf2) buf) (x, y)
    = if y = y0 ∧ x < n ∧ y0 * w + x < len then
        bayerColor ((y0 % 2) * 2 + x % 2) (sample (y0 * w + x))
      else buf (x, y) := by
  induction n with
  | zero =>
    simp
  | succ n ih =>
    rw [List.range_succ, List.foldl_append, List.foldl_cons, List.foldl_nil]
    by_cases hidx : y0 * w + n < len
    · rw [if_pos hidx]
      rw [show ∀ (b : Nat × Nat → Nat × Nat × Nat) (x2 y2 : Nat)
          (c : Nat × Nat × Nat),
          putPixel b x2 y2 c (x, y) = if (x, y) = (x2, y2) then c else b (x, y)
        from fun _ _ _ _ => rfl]
      by_cases hxy : (x, y) = (n, y0)
      · rw [if_pos hxy]
        rw [Prod.mk.injEq] at hxy
        obtain ⟨hx, hy⟩ := hxy
        subst hx; subst hy
        rw [if_pos ⟨rfl, by omega, hidx⟩]
      · rw [if_neg hxy, ih]
        rw [Prod.mk.injEq] at hxy
        refine if_congr ⟨fun hc => ⟨hc.1, by omega, hc.2.2⟩,
          fun hc => ⟨hc.1, ?_, hc.2.2⟩⟩ rfl rfl
        have hxn : ¬ (x = n ∧ y = y0) := hxy
        rcases Nat.lt_or_ge x n with hlt | hge
        · exact hlt
        · exfalso
          exact hxn ⟨by omega, hc.1⟩
    · rw [if_neg hidx, ih]
      refine if_congr ⟨fun hc => ⟨hc.1, by omega, hc.2.2⟩,
        fun hc => ⟨hc.1, ?_, hc.2.2⟩⟩ rfl rfl
      rcases Nat.lt_or_ge x n with hlt | hge
      · exact hlt
      · exfalso
        have : x = n := by omega
        subst this
        exact hidx hc.2.2

/-- The full demosaic loop, pointwise: pixel `(x, y)` holds the Bayer
colour estimate when `x < width`, `y < height` and the sample index is in
range, and keeps the zero initialisation otherwise. -/
theorem demosaicLoop_apply (w len : Nat) (sample : Nat → Nat) (h x y : Nat) :
    demosaicLoop w len sample h (x, y)
      = if y < h ∧ x < w ∧ y * w + x < len then
          bayerColor ((y % 2) * 2 + x % 2) (sample (y * w + x))
        else (0, 0, 0) := by
  unfold demosaicLoop
  induction h with
  | zero =>
    simp
  | succ n ih =>
    rw [List.range_succ, List.foldl_append, List.foldl_cons, List.foldl_nil]
    rw [demosaic_inner_apply]
    by_cases hrow : y = n ∧ x < w ∧ n * w + x < len
    · rw [if_pos hrow]
      obtain ⟨hy, hx, hidx⟩ := hrow
      subst hy
      rw [if_pos ⟨by omega, hx, hidx⟩]
    · rw [if_neg hrow, ih]
      refine if_congr ⟨fun hc => ⟨by omega, hc.2⟩, fun hc => ⟨?_, hc.2⟩⟩
        rfl rfl
      rcases Nat.lt_or_ge y n with hlt | hge
      · exact hlt
      · exfalso
        have hyn : y = n := by omega
        subst hyn
        exact hrow ⟨rfl, hc.2⟩

/-! ## Derived temporary names and filesystem cleanup facts -/

/-- A path extended by `".ppm"` differs from the path itself. -/
theorem append_ppm_ne_self (q : String) : q ++ ".ppm" ≠ q := by
  intro hcontra
  have hlen := congrArg (fun s : String => s.data.length) hcontra
  simp at hlen

/-- A name produced by `with_extension("jpg")` never coincides with a
`".ppm"`-suffixed name: the final characters differ. -/
theorem withExtension_jpg_ne_ppm (p q : String) :
    withExtension p "jpg" ≠ q ++ ".ppm" := by
  unfold withExtension
  rw [if_neg (by decide)]
  intro hcontra
  have hlast := congrArg (fun s : String => s.data.getLast?) hcontra
  simp [List.getLast?_append] at hlast

/-- The second stage of `extract_with_dcraw_simple` never leaves the
temporary ppm behind: it is deleted on every exit path after its
creation, and the stage creates nothing else under that name. -/
theorem dcraw_stage2_no_ppm (e : DcrawSimpleEnv) (jpg_path : String)
    (fs : FS) (h0 : fs (jpg_path ++ ".ppm") = false) :
    (dcrawSimpleStage2 e jpg_path fs).2 (jpg_path ++ ".ppm") = false := by
  unfold dcrawSimpleStage2
  split_ifs <;> simp [fsInsert, fsRemove, h0]

/-- The temporary ppm file of `extract_with_dcraw_simple` never survives
the call: it is deleted on every exit path after its creation, and no
other step creates it. -/
theorem dcraw_simple_no_ppm (e : DcrawSimpleEnv) (path jpg_path : String)
    (fs : FS) (h0 : fs (jpg_path ++ ".ppm") = false) :
    (extract_with_dcraw_simple e path jpg_path fs).2
      (jpg_path ++ ".ppm") = false := by
  have hne1 : (jpg_path ++ ".ppm" == jpg_path) = false := by
    rw [beq_eq_false_iff_ne]
    exact append_ppm_ne_self jpg_path
  have hne2 : (jpg_path ++ ".ppm" == thumbPathOf path) = false := by
    rw [beq_eq_false_iff_ne]
    intro hcontra
    unfold thumbPathOf at hcontra
    exact withExtension_jpg_ne_ppm _ _ hcontra.symm
  simp only [extract_with_dcraw_simple]
  split_ifs <;>
    first
      | (simp [fsRemove, fsInsert, hne1, hne2, h0]
         done)
      | (apply dcraw_stage2_no_ppm
         simp [fsInsert, hne2, h0])

/-- The temporary jpg of `rust_raw_to_grayscale` never survives the call:
all three exit paths remove it. -/
theorem raw_to_grayscale_no_temp (chainOk : Bool) (chainFS : FS → FS)
    (openOk : Bool) (path : String) (fs : FS) :
    (rust_raw_to_grayscale chainOk chainFS openOk path fs).2
      (path ++ ".temp.jpg") = false := by
  unfold rust_raw_to_grayscale
  split_ifs <;> simp [fsRemove]

/-! ## The strategy chains as instances of the single-loop chain -/

/-- The RAF chain is the strategy loop over its three strategies. -/
theorem raf_eq_runChain (s1 s2 s3 : Bool) (t1 t2 : Nat) :
    rust_process_raf_file s1 s2 s3 t1 t2 = runChain [s1, s2, s3] [t1, t2] := by
  cases s1 <;> cases s2 <;> cases s3 <;>
    simp [rust_process_raf_file, runChain]

/-- The generic chain is the strategy loop over its three strategies. -/
theorem convert_eq_runChain (path : String) (raf : ChainResult)
    (p f g : Bool) (t1 t2 : Nat)
    (h : is_specific_raw_format path "raf" = false) :
    rust_convert_raw_to_jpg path raf p f g t1 t2
      = runChain [p, f, g] [t1, t2] := by
  cases p <;> cases f <;> cases g <;>
    simp [rust_convert_raw_to_jpg, runChain, h]

/-- A chain whose next strategy succeeds terminates with success. -/
theorem runChain_success (rest : List Bool) (ts : List Nat) :
    runChain (true :: rest) ts = .success := by
  cases rest <;> cases ts <;> simp [runChain]

/-- A failed strategy with strategies remaining and the budget exceeded
terminates with a timeout, regardless of the remaining strategies. -/
theorem runChain_timeout (s : Bool) (rest : List Bool) (t : Nat)
    (ts : List Nat) (h : t > TIMEOUT_MS) :
    runChain (false :: s :: rest) (t :: ts) = .timeout := by
  simp [runChain, h]

/-- A failed strategy within budget proceeds to the next strategy. -/
theorem runChain_step (s : Bool) (rest : List Bool) (t : Nat)
    (ts : List Nat) (h : t ≤ TIMEOUT_MS) :
    runChain (false :: s :: rest) (t :: ts) = runChain (s :: rest) ts := by
  simp [runChain, Nat.not_lt.mpr h]

/-- A failing last strategy exhausts the chain. -/
theorem runChain_exhausted (ts : List Nat) :
    runChain [false] ts = .exhausted := by
  simp [runChain]

/-! ## Claims -/

/-- C1 (amended): for every 32×32 grayscale input,
`rust_compute_perceptual_hash` computes the 64 block means of the 4×4
blocks exactly (`blockMeans`, row-major block order), takes as threshold
the element at index 32 of the ascending sort of those means — the upper
of the two central values, not their average — and emits one character
per block, `'1'` exactly when that block's mean is strictly greater than
the threshold and `'0'` otherwise. -/
theorem c1_block_median_hash (img : GrayImage) (hr : img.rows = 32)
    (hc : img.cols = 32) :
    rust_compute_perceptual_hash img
      = .ok (String.mk ((blockMeans img).map (fun v =>
          if v > upperMedian img then '1' else '0'))) :=
  perceptual_hash_ok img hr hc

/-- C1 witness: the amended claim at the constant 32×32 image. -/
theorem c1_witness :
    rust_compute_perceptual_hash constImg32
      = .ok (String.mk ((blockMeans constImg32).map (fun v =>
          if v > upperMedian constImg32 then '1' else '0'))) :=
  c1_block_median_hash constImg32 rfl rfl

/-- C1 counterexample: on the image whose top half is 0 and bottom half is
255, the code (upper-central median 255) produces sixty-four `'0'`s while
the spec's averaged median (127.5) produces thirty-two `'0'`s followed by
thirty-two `'1'`s, so the hash described by the claim differs from the one
computed by the code. -/
theorem c1_counterexample :
    rust_compute_perceptual_hash halfImg
        = .ok (String.mk (List.replicate 64 '0'))
    ∧ spec_block_median_hash halfImg
        = .ok (String.mk (List.replicate 32 '0' ++ List.replicate 32 '1'))
    ∧ rust_compute_perceptual_hash halfImg ≠ spec_block_median_hash halfImg := by
  refine ⟨half_hash, half_spec_hash, ?_⟩
  rw [half_hash, half_spec_hash]
  intro hcontra
  have hs := Except.ok.inj hcontra
  have hd := congrArg String.data hs
  exact absurd hd (by decide)

/-- C2 (amended): for every 32×32 checkerboard of two alternating constant
block intensities `lo < hi`, the threshold computed by
`rust_compute_perceptual_hash` does not lie strictly between the two
intensities — it equals the higher intensity `hi` — and the resulting
hash does not alternate: it is sixty-four `'0'`s. -/
theorem c2_checkerboard (lo hi : Nat) (h : lo < hi) :
    upperMedian (checkerImg lo hi) = (hi : ℚ)
    ∧ rust_compute_perceptual_hash (checkerImg lo hi)
        = .ok (String.mk (List.replicate 64 '0')) :=
  ⟨checker_upperMedian lo hi h, checker_hash lo hi h⟩

/-- C2 witness: the amended claim at the 0/255 checkerboard. -/
theorem c2_witness :
    upperMedian (checkerImg 0 255) = 255
    ∧ rust_compute_perceptual_hash (checkerImg 0 255)
        = .ok (String.mk (List.replicate 64 '0')) :=
  c2_checkerboard 0 255 (by decide)

/-- C2 counterexample: on the checkerboard with even blocks 0 and odd
blocks 255 the threshold is 255, which does not lie strictly between 0 and
255, and the emitted hash is all `'0'`s rather than the alternating
checkerboard pattern. -/
theorem c2_counterexample :
    rust_compute_perceptual_hash (checkerImg 12 200)
        = .ok (String.mk (List.replicate 64 '0'))
    ∧ ¬ (upperMedian (checkerImg 12 200) < 200)
    ∧ String.mk (List.replicate 64 '0')
        ≠ String.mk ((List.range 64).map (fun k =>
            if (k / 8 + k % 8) % 2 = 0 then '0' else '1')) := by
  refine ⟨checker_hash 12 200 (by decide), ?_, by decide⟩
  rw [checker_upperMedian 12 200 (by decide)]
  decide

/-- C3 (amended): for a `RawSensorImage` whose pixel-data sequence is
shorter than width×height, the sensor-decoder fallback does not fail with
a decode error: whenever the final encode succeeds the call succeeds, and
every pixel whose sample index is out of range is silently left at the
zero initialisation `(0, 0, 0)` — the out-of-range indices are skipped,
not treated as data corruption. -/
theorem c3_truncated_data (tmInt : Nat → Nat) (tmFloat : ℚ → Nat)
    (raw : RawImage) (hshort : rawDataLen raw < raw.width * raw.height) :
    process_and_save_image tmInt tmFloat true raw
        = .ok (decodeBuffer tmInt tmFloat raw)
    ∧ ∀ x y, x < raw.width → y < raw.height →
        rawDataLen raw ≤ y * raw.width + x →
        decodeBuffer tmInt tmFloat raw (x, y) = (0, 0, 0) := by
  refine ⟨rfl, ?_⟩
  intro x y hx hy hidx
  unfold decodeBuffer
  rw [demosaicLoop_apply]
  rw [if_neg]
  intro hcontra
  omega

/-- C3 witness: the amended claim at the concrete short sensor image. -/
theorem c3_witness :
    process_and_save_image idTone zeroToneF true shortRaw
        = .ok (decodeBuffer idTone zeroToneF shortRaw)
    ∧ decodeBuffer idTone zeroToneF shortRaw (1, 0) = (0, 0, 0) := by
  have h := c3_truncated_data idTone zeroToneF shortRaw (by decide)
  exact ⟨h.1, h.2 1 0 (by decide) (by decide) (by decide)⟩

/-- C3 counterexample: on a 2×1 sensor image with a single sample the
decode does not fail with a decode error — it returns success (the only
fallible step is the final encode) and writes `(0, 0, 0)` for the pixel
whose index is out of range. -/
theorem c3_counterexample :
    rawDataLen shortRaw < shortRaw.width * shortRaw.height
    ∧ process_and_save_image idTone zeroToneF true shortRaw
        = .ok (decodeBuffer idTone zeroToneF shortRaw)
    ∧ decodeBuffer idTone zeroToneF shortRaw (1, 0) = (0, 0, 0) := by
  refine ⟨by decide, rfl, ?_⟩
  unfold decodeBuffer
  rw [demosaicLoop_apply]
  decide

/-- C4 (confirmed): for every 8×8 grayscale input,
`rust_compute_average_hash` returns the 64-character row-major bit-string
whose threshold is the truncating integer mean of all 64 samples and
whose bit is `'1'` exactly when the pixel is ≥ the mean; consequently a
constant 8×8 input hashes to all `'1'`s. -/
theorem c4_average_hash (img : GrayImage) (hr : img.rows = 8)
    (hc : img.cols = 8) :
    rust_compute_average_hash img
      = .ok (String.mk ((List.range 64).map (fun k =>
          if img.pix (k / 8) (k % 8) ≥ pixelMean img then '1' else '0')))
    ∧ ((∀ y < 8, ∀ x < 8, img.pix y x = img.pix 0 0) →
        rust_compute_average_hash img
          = .ok (String.mk (List.replicate 64 '1'))) := by
  have hmain : rust_compute_average_hash img
      = .ok (String.mk ((List.range 64).map (fun k =>
          if img.pix (k / 8) (k % 8) ≥ pixelMean img then '1' else '0'))) := by
    rw [average_hash_ok img hr hc]
    rw [flatMap_range_eq (g := fun y x =>
      if img.pix y x ≥ pixelMean img then '1' else '0')]
  refine ⟨hmain, ?_⟩
  intro hconst
  rw [hmain]
  have hmean : pixelMean img = img.pix 0 0 := by
    unfold pixelMean
    rw [flatMap_range_eq (g := fun y x => img.pix y x)]
    rw [List.map_congr_left (g := fun _ => img.pix 0 0) (fun k hk => by
      have hk64 := List.mem_range.mp hk
      exact hconst (k / 8) (by omega) (k % 8) (by omega))]
    rw [List.map_const']
    rw [List.sum_replicate]
    simp [smul_eq_mul]
  congr 1
  congr 1
  rw [List.map_congr_left (g := fun _ => '1') (fun k hk => by
    have hk64 := List.mem_range.mp hk
    rw [hmean, hconst (k / 8) (by omega) (k % 8) (by omega)]
    simp)]
  simp [List.map_const']

/-- C4 witness: the constant 8×8 image hashes to all `'1'`s. -/
theorem c4_witness :
    rust_compute_average_hash constImg8
      = .ok (String.mk (List.replicate 64 '1')) :=
  (c4_average_hash constImg8 rfl rfl).2 (fun _ _ _ _ => rfl)

/-- C5 (confirmed): a non-8×8 input makes `rust_compute_average_hash`
return the shape-mismatch error (and no hash), and a non-32×32 input
makes `rust_compute_perceptual_hash` return its shape-mismatch error;
neither function resizes its input. -/
theorem c5_shape_mismatch (img : GrayImage) :
    ((img.rows ≠ 8 ∨ img.cols ≠ 8) →
      rust_compute_average_hash img
        = .error "Image must be 8x8 for average hash")
    ∧ ((img.rows ≠ 32 ∨ img.cols ≠ 32) →
      rust_compute_perceptual_hash img
        = .error "Image must be 32x32 for perceptual hash") := by
  constructor
  · intro h
    unfold rust_compute_average_hash
    rw [if_pos h]
  · intro h
    unfold rust_compute_perceptual_hash
    rw [if_pos h]

/-- C5 witness: the 31×32 image is rejected by both hash functions. -/
theorem c5_witness :
    rust_compute_average_hash badImg
        = .error "Image must be 8x8 for average hash"
    ∧ rust_compute_perceptual_hash badImg
        = .error "Image must be 32x32 for perceptual hash" :=
  ⟨(c5_shape_mismatch badImg).1 (Or.inl (by decide)),
    (c5_shape_mismatch badImg).2 (Or.inl (by decide))⟩

/-- C6 (confirmed): `is_specific_raw_format` is a total function that
compares the file extension with the queried format case-insensitively —
two paths whose extensions agree up to case classify identically for
every format — and a path without a readable extension matches no
format. -/
theorem c6_classify_format (p1 p2 f : String) :
    ((rustExtension p1).map lowerAscii = (rustExtension p2).map lowerAscii →
      is_specific_raw_format p1 f = is_specific_raw_format p2 f)
    ∧ (rustExtension p1 = none → is_specific_raw_format p1 f = false) := by
  constructor
  · intro h
    unfold is_specific_raw_format
    cases h1 : rustExtension p1 <;> cases h2 : rustExtension p2 <;>
      rw [h1, h2] at h <;> simp_all [lowerAscii]
  · intro h
    unfold is_specific_raw_format
    rw [h]

/-- C6 witness: `"IMG.RAF"` and `"img.raf"` classify identically as RAF,
and an extensionless path matches nothing. -/
theorem c6_witness :
    is_specific_raw_format "IMG.RAF" "raf"
        = is_specific_raw_format "img.raf" "raf"
    ∧ is_specific_raw_format "noext" "raf" = false :=
  ⟨(c6_classify_format "IMG.RAF" "img.raf" "raf").1 (by decide),
    (c6_classify_format "noext" "noext" "raf").2 (by decide)⟩

/-- C7 (confirmed): every in-range sample written by the demosaic
fallback produces the RGB pixel determined by the 2×2 Bayer tile position
`(y % 2, x % 2)` under the assumed RGGB pattern: position 0 gives
`(v, v/2, v/2)`, positions 1 and 2 give `(v/2, v, v/2)`, position 3 gives
`(v/2, v/2, v)`, where `v` is the tone-mapped value of the sample. -/
theorem c7_bayer_pattern (tmInt : Nat → Nat) (tmFloat : ℚ → Nat)
    (raw : RawImage) (x y : Nat) (hx : x < raw.width) (hy : y < raw.height)
    (hidx : y * raw.width + x < rawDataLen raw) :
    decodeBuffer tmInt tmFloat raw (x, y)
        = bayerColor ((y % 2) * 2 + x % 2)
            (sampleVal tmInt tmFloat raw (y * raw.width + x))
    ∧ (y % 2 = 0 ∧ x % 2 = 0 →
        decodeBuffer tmInt tmFloat raw (x, y)
          = (sampleVal tmInt tmFloat raw (y * raw.width + x),
             sampleVal tmInt tmFloat raw (y * raw.width + x) / 2,
             sampleVal tmInt tmFloat raw (y * raw.width + x) / 2))
    ∧ (y % 2 = 0 ∧ x % 2 = 1 →
        decodeBuffer tmInt tmFloat raw (x, y)
          = (sampleVal tmInt tmFloat raw (y * raw.width + x) / 2,
             sampleVal tmInt tmFloat raw (y * raw.width + x),
             sampleVal tmInt tmFloat raw (y * raw.width + x) / 2))
    ∧ (y % 2 = 1 ∧ x % 2 = 0 →
        decodeBuffer tmInt tmFloat raw (x, y)
          = (sampleVal tmInt tmFloat raw (y * raw.width + x) / 2,
             sampleVal tmInt tmFloat raw (y * raw.width + x),
             sampleVal tmInt tmFloat raw (y * raw.width + x) / 2))
    ∧ (y % 2 = 1 ∧ x % 2 = 1 →
        decodeBuffer tmInt tmFloat raw (x, y)
          = (sampleVal tmInt tmFloat raw (y * raw.width + x) / 2,
             sampleVal tmInt tmFloat raw (y * raw.width + x) / 2,
             sampleVal tmInt tmFloat raw (y * raw.width + x))) := by
  have hmain : decodeBuffer tmInt tmFloat raw (x, y)
      = bayerColor ((y % 2) * 2 + x % 2)
          (sampleVal tmInt tmFloat raw (y * raw.width + x)) := by
    unfold decodeBuffer
    rw [demosaicLoop_apply, if_pos ⟨hy, hx, hidx⟩]
  refine ⟨hmain, ?_, ?_, ?_, ?_⟩
  · rintro ⟨hy2, hx2⟩
    rw [hmain, show (y % 2) * 2 + x % 2 = 0 by omega]
    rfl
  · rintro ⟨hy2, hx2⟩
    rw [hmain, show (y % 2) * 2 + x % 2 = 1 by omega]
    rfl
  · rintro ⟨hy2, hx2⟩
    rw [hmain, show (y % 2) * 2 + x % 2 = 2 by omega]
    rfl
  · rintro ⟨hy2, hx2⟩
    rw [hmain, show (y % 2) * 2 + x % 2 = 3 by omega]
    rfl

/-- C7 witness: the Bayer colour estimate at the four tile positions of
the concrete 2×2 sensor image. -/
theorem c7_witness :
    decodeBuffer idTone zeroToneF demoRaw (0, 0) = (100, 50, 50)
    ∧ decodeBuffer idTone zeroToneF demoRaw (1, 0) = (100, 200, 100)
    ∧ decodeBuffer idTone zeroToneF demoRaw (1, 1) = (200, 200, 400) := by
  have h00 := (c7_bayer_pattern idTone zeroToneF demoRaw 0 0 (by decide)
    (by decide) (by decide)).2.1 (by decide)
  have h10 := (c7_bayer_pattern idTone zeroToneF demoRaw 1 0 (by decide)
    (by decide) (by decide)).2.2.1 (by decide)
  have h11 := (c7_bayer_pattern idTone zeroToneF demoRaw 1 1 (by decide)
    (by decide) (by decide)).2.2.2.2 (by decide)
  exact ⟨h00.trans (by decide), h10.trans (by decide), h11.trans (by decide)⟩

/-- C8 (confirmed): both decode chains are the single strategy loop over
their three strategies with the recorded elapsed times: the first
successful strategy terminates the chain with success; a failure with
strategies remaining checks the elapsed time against the fixed 4-second
budget and terminates with a timeout when it is exceeded (no further
strategy is attempted: the result does not depend on the later oracles),
otherwise proceeds to the next strategy; a failing last strategy
terminates with the exhausted-chain error. -/
theorem c8_strategy_chain :
    (∀ s1 s2 s3 t1 t2, rust_process_raf_file s1 s2 s3 t1 t2
        = runChain [s1, s2, s3] [t1, t2])
    ∧ (∀ path raf p f g t1 t2, is_specific_raw_format path "raf" = false →
        rust_convert_raw_to_jpg path raf p f g t1 t2
          = runChain [p, f, g] [t1, t2])
    ∧ (∀ path raf p f g t1 t2, is_specific_raw_format path "raf" = true →
        rust_convert_raw_to_jpg path raf p f g t1 t2 = raf)
    ∧ (∀ rest ts, runChain (true :: rest) ts = ChainResult.success)
    ∧ (∀ s rest t ts, t > TIMEOUT_MS →
        runChain (false :: s :: rest) (t :: ts) = ChainResult.timeout)
    ∧ (∀ s rest t ts, t ≤ TIMEOUT_MS →
        runChain (false :: s :: rest) (t :: ts) = runChain (s :: rest) ts)
    ∧ (∀ ts, runChain [false] ts = ChainResult.exhausted) := by
  refine ⟨raf_eq_runChain, ?_, ?_, runChain_success, runChain_timeout,
    runChain_step, runChain_exhausted⟩
  · intro path raf p f g t1 t2 h
    exact convert_eq_runChain path raf p f g t1 t2 h
  · intro path raf p f g t1 t2 h
    simp [rust_convert_raw_to_jpg, h]

/-- C8 witness: the RAF chain at concrete oracle outcomes — a timeout
after the first failure, a second-strategy success within budget, and a
full exhaustion. -/
theorem c8_witness :
    rust_process_raf_file false false false 5000 0 = ChainResult.timeout
    ∧ rust_process_raf_file false true false 4000 0 = ChainResult.success
    ∧ rust_process_raf_file false false false 4000 4000
        = ChainResult.exhausted := by
  have h := c8_strategy_chain
  refine ⟨?_, ?_, ?_⟩
  · exact (h.1 false false false 5000 0).trans
      (h.2.2.2.2.1 false [false] 5000 [0] (by decide))
  · exact (h.1 false true false 4000 0).trans
      ((h.2.2.2.2.2.1 true [false] 4000 [0] (by decide)).trans
        (h.2.2.2.1 [false] [0]))
  · exact (h.1 false false false 4000 4000).trans
      ((h.2.2.2.2.2.1 false [false] 4000 [4000] (by decide)).trans
        ((h.2.2.2.2.2.1 false [] 4000 [] (by decide)).trans
          (h.2.2.2.2.2.2 [])))

/-- C9 (amended): the intermediate ppm of `extract_with_dcraw_simple` and
the temporary jpg of `rust_raw_to_grayscale` are deleted on every exit
path — but the `thumb_*` preview file is not covered by this guarantee
(see the counterexample: it survives when the copy to the destination
fails). -/
theorem c9_cleanup :
    (∀ e path jpg_path fs, fs (jpg_path ++ ".ppm") = false →
      (extract_with_dcraw_simple e path jpg_path fs).2
        (jpg_path ++ ".ppm") = false)
    ∧ (∀ chainOk chainFS openOk path fs,
      (rust_raw_to_grayscale chainOk chainFS openOk path fs).2
        (path ++ ".temp.jpg") = false) :=
  ⟨fun e path jpg_path fs h => dcraw_simple_no_ppm e path jpg_path fs h,
    fun chainOk chainFS openOk path fs =>
      raw_to_grayscale_no_temp chainOk chainFS openOk path fs⟩

/-- C9 witness: the cleanup guarantees at concrete inputs. -/
theorem c9_witness :
    (extract_with_dcraw_simple leakEnv "b.raf" "o.jpg" emptyFS).2
        ("o.jpg" ++ ".ppm") = false
    ∧ (rust_raw_to_grayscale true id true "b.raf" emptyFS).2
        ("b.raf" ++ ".temp.jpg") = false :=
  ⟨c9_cleanup.1 leakEnv "b.raf" "o.jpg" emptyFS rfl,
    c9_cleanup.2 true id true "b.raf" emptyFS⟩

/-- C9 counterexample: a run of `extract_with_dcraw_simple` in which
`dcraw -e` succeeds and creates the thumb file but the copy to the
destination fails returns failure with `thumb_a.jpg` still on disk: a
temporary artifact of the call survives an exit path. -/
theorem c9_counterexample :
    (extract_with_dcraw_simple leakEnv "a.raf" "out.jpg" emptyFS).1 = false
    ∧ (extract_with_dcraw_simple leakEnv "a.raf" "out.jpg" emptyFS).2
        "thumb_a.jpg" = true := by
  constructor <;> decide

/-- C10 (confirmed): the block-median hash is never all `'1'`s: the
selected threshold is itself one of the 64 block means, and the bit
demands a mean strictly greater than the threshold, so the block whose
mean equals the threshold contributes a `'0'`. -/
theorem c10_not_all_ones (img : GrayImage) (hr : img.rows = 32)
    (hc : img.cols = 32) :
    ∃ s, rust_compute_perceptual_hash img = .ok s
      ∧ '0' ∈ s.data
      ∧ s ≠ String.mk (List.replicate 64 '1') := by
  have hlen : (blockMeans img).length = 64 := by simp [blockMeans]
  have hslen : ((blockMeans img).mergeSort).length = 64 := by
    simp [hlen]
  have h32 : (32 : Nat) < ((blockMeans img).mergeSort).length := by omega
  have hmem : upperMedian img ∈ blockMeans img := by
    have hget : upperMedian img = ((blockMeans img).mergeSort)[32] := by
      simp [upperMedian, List.getD_eq_getElem?_getD,
        List.getElem?_eq_getElem h32]
    rw [hget]
    exact List.mem_mergeSort.mp (List.getElem_mem h32)
  have hzero : '0' ∈ (blockMeans img).map (fun v =>
      if v > upperMedian img then '1' else '0') :=
    List.mem_map.mpr ⟨upperMedian img, hmem, by simp⟩
  refine ⟨_, perceptual_hash_ok img hr hc, hzero, ?_⟩
  intro hcontra
  have hd : (blockMeans img).map (fun v =>
      if v > upperMedian img then '1' else '0') = List.replicate 64 '1' :=
    congrArg String.data hcontra
  have : ('0' : Char) ∈ List.replicate 64 '1' := hd ▸ hzero
  exact absurd (List.eq_of_mem_replicate this) (by decide)

/-- C10 witness: the never-all-ones property at the constant 32×32
image. -/
theorem c10_witness :
    ∃ s, rust_compute_perceptual_hash constImg32 = .ok s
      ∧ '0' ∈ s.data
      ∧ s ≠ String.mk (List.replicate 64 '1') :=
  c10_not_all_ones constImg32 rfl rfl
